import Mathlib

/-!
Verification development for the skills marketplace MCP server
(gemini-extension/mcp-server/index.js).

The file embeds the program's core shallowly:
text is modelled as `List Char`, the file system as a finite tree
(`FSNode`), and the JavaScript regular expressions used by the source are
embedded as executable matchers that implement their exact backtracking
semantics on the relevant patterns.
-/

/-- Embeds the JavaScript regex character class whitespace used by the
source's regexes and by `String.prototype.trim`.  It contains the ASCII
whitespace characters together with the Unicode space characters matched
by JavaScript. -/
def isWS (c : Char) : Bool :=
  c = ' ' || c = '\t' || c = '\n' || c = '\r' || c = '\x0b' || c = '\x0c' ||
  c = '\u00a0' || c = '\u1680' || ('\u2000' ≤ c && c ≤ '\u200a') ||
  c = '\u2028' || c = '\u2029' || c = '\u202f' || c = '\u205f' ||
  c = '\u3000' || c = '\ufeff'

/-- Embeds `String.prototype.trim`: drop whitespace from both ends. -/
def trimChars (l : List Char) : List Char :=
  ((l.dropWhile isWS).reverse.dropWhile isWS).reverse

/-- Embeds `String.prototype.split('\n')`: split on newline; the empty
string splits to one empty piece, like in JavaScript. -/
def splitNl : List Char → List (List Char)
  | [] => [[]]
  | '\n' :: r => [] :: splitNl r
  | c :: r =>
    match splitNl r with
    | l :: ls => (c :: l) :: ls
    | [] => [[c]]

/-- Embeds `Array.prototype.join(" ")` on a list of strings. -/
def joinSpace : List (List Char) → List Char
  | [] => []
  | [l] => l
  | l :: ls => l ++ ' ' :: joinSpace ls

/-- Embeds `line.startsWith('  ')` (two literal spaces). -/
def twoSpace : List Char → Bool
  | ' ' :: ' ' :: _ => true
  | _ => false

/-- The sub-pattern `\s*\n` of the frontmatter regex, applied after the
closing dashes: it succeeds iff a newline is reachable across a run of
whitespace. -/
def wsThenNl : List Char → Bool
  | [] => false
  | c :: r => if c = '\n' then true else if isWS c then wsThenNl r else false

/-- The closing delimiter sub-pattern `\n---\s*\n` of the frontmatter
regex `/^---\s*\n([\s\S]*?)\n---\s*\n/`, tested at the head of a suffix. -/
def closeAt : List Char → Bool
  | '\n' :: '-' :: '-' :: '-' :: r => wsThenNl r
  | _ => false

/-- The lazy group `([\s\S]*?)` of the frontmatter regex: scan forward for
the first position where the closing delimiter matches, returning the
characters consumed before it (the captured yaml text). -/
def scanClose (acc : List Char) : List Char → Option (List Char)
  | [] => none
  | c :: r => if closeAt (c :: r) then some acc.reverse else scanClose (c :: acc) r

/-- Candidate continuation points of the opening `---\s*\n`: the suffixes
that follow each newline inside the run of whitespace after the dashes, in
textual order.  The regex engine's greedy `\s*` tries them from last to
first, so the matcher below reverses this list. -/
def nlRests : List Char → List (List Char)
  | [] => []
  | c :: r => if c = '\n' then r :: nlRests r else if isWS c then nlRests r else []

/-- Try the closing-delimiter scan on each candidate continuation point in
order, keeping the first success, mirroring the engine's backtracking. -/
def firstClose : List (List Char) → Option (List Char)
  | [] => none
  | cand :: rest =>
    match scanClose [] cand with
    | some y => some y
    | none => firstClose rest

/-- Embeds `content.match(/^---\s*\n([\s\S]*?)\n---\s*\n/)`, returning the
captured group (the yaml header text) when the regex matches.  The regex
is anchored at the start of the string (no multiline flag), so the content
must begin with the three dashes. -/
def matchFrontmatter : List Char → Option (List Char)
  | '-' :: '-' :: '-' :: s3 => firstClose (nlRests s3).reverse
  | _ => none

/-- Strip the literal key `description:` from the head of a line,
returning the remainder after the colon. -/
def descKeyRest : List Char → Option (List Char)
  | 'd' :: 'e' :: 's' :: 'c' :: 'r' :: 'i' :: 'p' :: 't' :: 'i' :: 'o' :: 'n' :: ':' :: r =>
    some r
  | _ => none

/-- Embeds `line.match(/^description:\s*>/)` on a single line: after the
key, a run of whitespace must be followed by the folded indicator. -/
def descGtLine (l : List Char) : Bool :=
  match descKeyRest l with
  | some r =>
    match r.dropWhile isWS with
    | '>' :: _ => true
    | _ => false
  | none => false

/-- The JavaScript line terminators (ECMAScript LineTerminator): line
feed, carriage return, line separator and paragraph separator.  The dot
of a regex matches any character except these, and the multiline anchors
recognize line boundaries exactly at them. -/
def isLineTerm (c : Char) : Bool :=
  c = '\n' || c = '\r' || c = '\u2028' || c = '\u2029'

/-- The trailing sub-pattern `\s*(.+)$` of the description regex, applied
to the text `r` that follows either the key or the folded indicator and
runs to the end of the yaml text.  Because `\s` also matches line
terminators and `.` matches anything except a line terminator, the group
captured by the backtracking engine is: the first non-whitespace suffix
up to its line end, or, when `r` is all whitespace, the last character of
`r` that is not a line terminator.  Returns `none` when the sub-pattern
cannot match (only line terminators, or nothing, after the current
position). -/
def greedyTail (r : List Char) : Option (List Char) :=
  let t := r.dropWhile isWS
  if t.isEmpty then
    match r.reverse.dropWhile isLineTerm with
    | [] => none
    | c :: _ => some [c]
  else some (t.takeWhile (fun c => !isLineTerm c))

/-- The part `\s*(>)?\s*(.+)$` of the description regex
`/^description:\s*(>)?\s*(.+)$/m`, applied to the text following the
literal key (running to the end of the yaml text).  The boolean records
whether the optional group captured the folded indicator.  Mirrors the
engine's preferences: the optional group is tried first when the first
non-whitespace character is the indicator, and on failure of its tail the
engine backtracks to an empty optional group, in which case `(.+)`
captures from the indicator itself. -/
def descTryAt (r : List Char) : Option (Bool × List Char) :=
  match r.dropWhile isWS with
  | '>' :: r2 =>
    match greedyTail r2 with
    | some g2 => some (true, g2)
    | none => some (false, ('>' :: r2).takeWhile (fun c => !isLineTerm c))
  | _ =>
    match greedyTail r with
    | some g2 => some (false, g2)
    | none => none

/-- One attempt of the description regex at a fixed position: the literal
key must start here, and the rest of the whole text (to the end of the
yaml text, since `\s*` may cross line boundaries) feeds the tail
pattern. -/
def tryDescAt (s : List Char) : Option (Bool × List Char) :=
  match descKeyRest s with
  | some r => descTryAt r
  | none => none

/-- The scan of the multiline anchor: the anchor holds immediately after
every line terminator, so the engine retries the pattern at the suffix
following each line terminator, from left to right. -/
def findDescMatchCore : List Char → Option (Bool × List Char)
  | [] => none
  | c :: r =>
    if isLineTerm c then
      match tryDescAt r with
      | some res => some res
      | none => findDescMatchCore r
    else findDescMatchCore r

/-- Embeds `yamlText.match(/^description:\s*(>)?\s*(.+)$/m)`: the
leftmost match position is the start of the text or the position after
some line terminator. -/
def findDescMatch (y : List Char) : Option (Bool × List Char) :=
  match tryDescAt y with
  | some res => some res
  | none => findDescMatchCore y

/-- Embeds the folded-description loop of `findSkills` (the `for` loop over
`yamlText.split('\n')` with its `capturing` flag): a line matching
`/^description:\s*>/` switches capturing on and is itself skipped; while
capturing, blank lines are skipped, lines starting with two spaces are
captured trimmed, and any other line ends the loop. -/
def foldedLoop : Bool → List (List Char) → List (List Char)
  | _, [] => []
  | capturing, l :: ls =>
    if descGtLine l then foldedLoop true ls
    else if capturing then
      if trimChars l = [] then foldedLoop capturing ls
      else if twoSpace l then trimChars l :: foldedLoop capturing ls
      else []
    else foldedLoop capturing ls

/-- The fixed placeholder description of `findSkills`. -/
def defaultDesc : List Char := "No description available.".data

/-- Embeds the description-extraction block of `findSkills` (its `try`
block together with the initial placeholder): the marker file content is
`none` when `fs.readFileSync` throws, in which case the caught error
leaves the placeholder; otherwise the frontmatter regex, the description
regex and the two value styles are applied as in the source. -/
def extractDescription : Option (List Char) → List Char
  | none => defaultDesc
  | some s =>
    match matchFrontmatter s with
    | none => defaultDesc
    | some y =>
      match findDescMatch y with
      | none => defaultDesc
      | some (isGt, g2) =>
        if isGt then joinSpace (foldedLoop false (splitNl y))
        else trimChars g2





/-! ## File-system model

Directory trees are finite: a node is either a file (whose content is
`none` when reading it would throw) or a directory with a readability
flag (`false` when `fs.readdirSync` on it would throw, e.g. for missing
permissions) and a list of named children.  Entry names model single path
components. -/

mutual
inductive FSNode where
  | file : Option (List Char) → FSNode
  | dir : Bool → FSEntries → FSNode
deriving DecidableEq
inductive FSEntries where
  | nil : FSEntries
  | cons : String → FSNode → FSEntries → FSEntries
deriving DecidableEq
end

/-- Whether an entry list has an entry with the given name. -/
def entHas : FSEntries → String → Bool
  | .nil, _ => false
  | .cons k _ r, n => k == n || entHas r n

/-- Look up the first entry with the given name. -/
def entGet : FSEntries → String → Option FSNode
  | .nil, _ => none
  | .cons k v r, n => if k == n then some v else entGet r n

/-- Append an entry at the end of an entry list. -/
def entAppend : FSEntries → String → FSNode → FSEntries
  | .nil, k, v => .cons k v .nil
  | .cons k0 v0 r, k, v => .cons k0 v0 (entAppend r k v)

/-! A subtree is fully readable when every directory in it is readable and
every file content is present.  `fs.cpSync` succeeds on exactly these. -/
mutual
def readableNode : FSNode → Bool
  | .file c => c.isSome
  | .dir rd es => rd && readableEntries es
def readableEntries : FSEntries → Bool
  | .nil => true
  | .cons _ v r => readableNode v && readableEntries r
end

/-- Look up the node at a relative path (a list of entry names). -/
def getNode : List String → FSNode → Option FSNode
  | [], n => some n
  | s :: rest, .dir _ es =>
    match entGet es s with
    | some child => getNode rest child
    | none => none
  | _ :: _, .file _ => none

/-! `walkNode` and `walkEntries` embed `walkSync`: depth-first enumeration
of all files below a node, in directory-entry order, paired with their
contents.  `readdirSync` on an unreadable directory throws, which the
source does not catch, so the walk is `Except`-valued.  Paths are relative
to the walk root. -/
mutual
def walkNode (pfx : List String) (nm : String) :
    FSNode → Except String (List (List String × Option (List Char)))
  | .file c => .ok [(pfx ++ [nm], c)]
  | .dir rd es => if rd then walkEntries (pfx ++ [nm]) es else .error "EACCES: readdirSync"
def walkEntries (pfx : List String) :
    FSEntries → Except String (List (List String × Option (List Char)))
  | .nil => .ok []
  | .cons nm v r =>
    match walkNode pfx nm v with
    | .error e => .error e
    | .ok a =>
      match walkEntries pfx r with
      | .error e => .error e
      | .ok b => .ok (a ++ b)
end

/-- Embeds the top-level `walkSync(PLUGINS_DIR)` call made by `findSkills`
after its `existsSync` guard: `readdirSync` on the root directory itself,
which throws when the root is unreadable or is not a directory. -/
def walkTop : FSNode → Except String (List (List String × Option (List Char)))
  | .file _ => .error "ENOTDIR: readdirSync"
  | .dir rd es => if rd then walkEntries [] es else .error "EACCES: readdirSync"

/-- Embeds the part-deduplication loop of `findSkills`: after the first
kept part, a part is kept only when it differs from the previously kept
one. -/
def dedupeAux (last : String) : List String → List String
  | [] => []
  | y :: ys => if y = last then dedupeAux last ys else y :: dedupeAux y ys

/-- Embeds the whole `finalParts` construction of `findSkills`. -/
def finalPartsFun : List String → List String
  | [] => []
  | x :: xs => x :: dedupeAux x xs

/-- One catalog entry, as assembled by `findSkills`: the derived name, the
skill root directory (as its path relative to the plugins root) and the
extracted description. -/
structure Skill where
  name : String
  path : List String
  description : List Char
deriving DecidableEq

/-- Embeds the per-marker body of the `findSkills` loop: derive the name
from the marker directory segments (`path.relative` yields the empty
string for the root itself, which `split` turns into one empty segment),
and extract the description from the marker content. -/
def mkSkill (f : List String × Option (List Char)) : Skill :=
  let dirSegs := f.1.dropLast
  let parts := if dirSegs = [] then [""] else dirSegs
  let filteredParts := parts.filter (fun p => p ≠ "skills")
  { name := String.intercalate "-" (finalPartsFun filteredParts)
    path := dirSegs
    description := extractDescription f.2 }

/-- Whether a walked file is a marker file:
`path.basename(f) === "SKILL.md"`. -/
def isMarker (f : List String × Option (List Char)) : Bool :=
  f.1.getLast? == some "SKILL.md"

/-- Embeds `findSkills`.  The plugins root is `none` when
`fs.existsSync(PLUGINS_DIR)` is false.  The final
`skills.sort((a, b) => a.name.localeCompare(b.name))` is embedded as a
stable insertion sort parameterized by the locale comparator `le`, where
`le a b` means the comparator returns a non-positive number on `(a, b)`;
a stable sort with a consistent comparator is determined uniquely by the
comparator and the input order, so any compliant `Array.prototype.sort`
agrees with this embedding. -/
def findSkills (le : String → String → Bool) (root : Option FSNode) :
    Except String (List Skill) :=
  match root with
  | none => .ok []
  | some nd =>
    match walkTop nd with
    | .error e => .error e
    | .ok allFiles =>
      .ok (List.insertionSort (fun a b => le a.name b.name = true)
        (((allFiles.filter isMarker).map mkSkill)))

/-- Outcome of `handleInstallSkill`, one constructor per return statement
of the source; the string payload stands for the destination path
`path.join(getGeminiSkillsDir(), skillName)` named in the message. -/
inductive InstallOutcome where
  | notFound : InstallOutcome
  | alreadyInstalled : String → InstallOutcome
  | installed : String → InstallOutcome
  | installError : String → InstallOutcome
deriving DecidableEq

/-- Embeds `fs.existsSync(destDir)` where
`destDir = path.join(destBase, skillName)`: `dest` is the state of the
installed-skills root (`none` when absent).  `path.join` with an empty
last component returns the base itself, so for the empty name this is the
existence of the base. -/
def destDirExists (dest : Option FSNode) (skillName : String) : Bool :=
  if skillName = "" then dest.isSome
  else
    match dest with
    | some (.dir _ es) => entHas es skillName
    | _ => false

/-- Embeds `handleInstallSkill`.  State passed and returned is the node at
the installed-skills root (`getGeminiSkillsDir()`), `none` when that
directory does not exist.  `mkdirSync` with `recursive: true` on the
absent base is modelled as succeeding (creating an empty directory); a
base that exists as a file makes the later `cpSync` throw `ENOTDIR`,
reported as an install error as in the source.  For the empty skill name
`path.join(destBase, "")` is `destBase` itself, so `cpSync` copies the
source children into the freshly created base. -/
def handleInstallSkill (le : String → String → Bool) (srcRoot : Option FSNode)
    (dest : Option FSNode) (skillName : String) :
    Except String (InstallOutcome × Option FSNode) :=
  match findSkills le srcRoot with
  | .error e => .error e
  | .ok skills =>
    match skills.find? (fun s => s.name == skillName) with
    | none => .ok (.notFound, dest)
    | some targetSkill =>
      if destDirExists dest skillName then .ok (.alreadyInstalled skillName, dest)
      else
        let dest1 : Option FSNode :=
          match dest with
          | none => some (.dir true .nil)
          | some d => some d
        match srcRoot with
        | none => .ok (.installError "ENOENT: cpSync", dest1)
        | some src =>
          match getNode targetSkill.path src with
          | none => .ok (.installError "ENOENT: cpSync", dest1)
          | some srcNode =>
            if readableNode srcNode then
              if skillName = "" then
                match dest, srcNode with
                | none, .dir _ es => .ok (.installed "", some (.dir true es))
                | none, .file _ => .ok (.installError "EEXIST: cpSync", dest1)
                | some _, _ => .ok (.installError "unreachable", dest1)
              else
                match dest1 with
                | some (.dir rd es) =>
                  .ok (.installed skillName, some (.dir rd (entAppend es skillName srcNode)))
                | _ => .ok (.installError "ENOTDIR: cpSync", dest1)
            else .ok (.installError "EACCES: cpSync", dest1)

/-- Embeds the `install_marketplace_skill` branch of the tool-call
request handler: a missing `skill_name` argument is `none`, and the
falsiness test on `skill_name` also rejects the empty string; both throw
the missing-argument error before `handleInstallSkill` runs. -/
def installToolHandler (le : String → String → Bool) (srcRoot : Option FSNode)
    (dest : Option FSNode) (skillName : Option String) :
    Except String (InstallOutcome × Option FSNode) :=
  match skillName with
  | none => .error "Missing required argument: skill_name"
  | some n =>
    if n = "" then .error "Missing required argument: skill_name"
    else handleInstallSkill le srcRoot dest n

deriving instance DecidableEq for Except

/-! ## Spec-side definitions and concrete inputs -/

/-- Whether the content begins with the three opening dashes, the anchored
head of the frontmatter regex. -/
def startsDashes : List Char → Bool
  | '-' :: '-' :: '-' :: _ => true
  | _ => false

/-- Locate the first header line carrying the description key, returning
the remainder of that line after the colon and the following header
lines. -/
def findDescLine : List (List Char) → Option (List Char × List (List Char))
  | [] => none
  | l :: ls =>
    match descKeyRest l with
    | some r => some (r, ls)
    | none => findDescLine ls

/-- Modelled from the claim C4 wording (spec section 4.1): if the value
immediately following the colon is the folded indicator with nothing else
on that line, consume subsequent header lines indented by at least two
spaces as continuation lines, stopping at the first header line that is
blank or not indented, trimming each and joining with a single space;
otherwise the description is the remainder of the line, trimmed.  This
definition exists to be compared against `extractDescription`, which is
translated from the source. -/
def specC4Description (s : List Char) : List Char :=
  match matchFrontmatter s with
  | none => defaultDesc
  | some y =>
    match findDescLine (splitNl y) with
    | none => defaultDesc
    | some (r, rest) =>
      if trimChars r = ['>'] then
        joinSpace ((rest.takeWhile
          (fun l => !(trimChars l).isEmpty && twoSpace l)).map trimChars)
      else trimChars r

/-- Folded marker content whose continuation lines are separated by a
blank line; the code keeps consuming after the blank line, the claim says
to stop there. -/
def c4inputA : List Char :=
  ("---\ndescription: >\n  first\n\n  second\nx: y\n---\nrest").data

/-- Marker content with a bare folded indicator and no continuation
content; the regex backtracks and captures the indicator itself as a
plain scalar value. -/
def c4inputB : List Char := ("---\ndescription: >\n---\nrest").data

/-- Marker content used by the concrete witnesses. -/
def egMd : List Char := ("---\ndescription: A concrete skill\n---\nbody").data

/-- A plugins tree with a single skill directory. -/
def egTree : FSNode :=
  .dir true (.cons "alpha"
    (.dir true (.cons "SKILL.md" (.file (some egMd)) .nil)) .nil)

/-- A plugins tree whose skill directory holds the marker file and a
resource file. -/
def egTree2 : FSNode :=
  .dir true (.cons "alpha"
    (.dir true (.cons "SKILL.md" (.file (some egMd))
      (.cons "resource.txt" (.file (some ("res").data)) .nil))) .nil)

/-- A trivial total transitive comparator used by concrete witnesses. -/
def leTrue : String → String → Bool := fun _ _ => true

/-- A length-based comparator: total, transitive, and computable, used to
instantiate the sorting theorem concretely. -/
def leLen : String → String → Bool := fun a b => a.length ≤ b.length

/-! ## Helper lemmas -/

theorem scanClose_close :
    ∀ (l : List Char) (acc y : List Char), scanClose acc l = some y →
      ∃ i, closeAt (l.drop i) = true := by
  intro l
  induction l with
  | nil => intro acc y h; simp [scanClose] at h
  | cons c r ih =>
    intro acc y h
    cases hc : closeAt (c :: r) with
    | true => exact ⟨0, hc⟩
    | false =>
      rw [scanClose, hc] at h
      simp only [Bool.false_eq_true, if_false] at h
      obtain ⟨i, hi⟩ := ih _ _ h
      exact ⟨i + 1, by simpa using hi⟩

theorem nlRests_drop :
    ∀ (m l : List Char), l ∈ nlRests m → ∃ j, l = m.drop j := by
  intro m
  induction m with
  | nil => intro l hl; simp [nlRests] at hl
  | cons c r ih =>
    intro l hl
    rw [nlRests] at hl
    by_cases h1 : c = '\n'
    · rw [if_pos h1] at hl
      rcases List.mem_cons.mp hl with rfl | hl2
      · exact ⟨1, rfl⟩
      · obtain ⟨j, rfl⟩ := ih _ hl2
        exact ⟨j + 1, by simp⟩
    · rw [if_neg h1] at hl
      by_cases h2 : isWS c = true
      · rw [if_pos h2] at hl
        obtain ⟨j, rfl⟩ := ih _ hl
        exact ⟨j + 1, by simp⟩
      · rw [if_neg h2] at hl
        simp at hl

theorem firstClose_sound :
    ∀ (cands : List (List Char)) (y : List Char), firstClose cands = some y →
      ∃ cand ∈ cands, scanClose [] cand = some y := by
  intro cands
  induction cands with
  | nil => intro y h; simp [firstClose] at h
  | cons cand rest ih =>
    intro y h
    rw [firstClose] at h
    cases hs : scanClose [] cand with
    | some z =>
      rw [hs] at h
      cases h
      exact ⟨cand, List.mem_cons_self cand rest, hs⟩
    | none =>
      rw [hs] at h
      obtain ⟨c2, hc2, hsc⟩ := ih y h
      exact ⟨c2, List.mem_cons_of_mem _ hc2, hsc⟩

theorem matchFrontmatter_close {s y : List Char} (h : matchFrontmatter s = some y) :
    ∃ i, closeAt (s.drop i) = true := by
  unfold matchFrontmatter at h
  split at h
  · rename_i s3
    obtain ⟨cand, hmem, hscan⟩ := firstClose_sound _ _ h
    obtain ⟨j, rfl⟩ := nlRests_drop _ _ (List.mem_reverse.mp hmem)
    obtain ⟨i, hi⟩ := scanClose_close _ _ _ hscan
    refine ⟨i + j + 3, ?_⟩
    have h2 : List.drop (i + j + 3) ('-' :: '-' :: '-' :: s3) =
        List.drop i (List.drop j s3) := by
      show List.drop (i + j) s3 = List.drop i (List.drop j s3)
      rw [List.drop_drop, Nat.add_comm]
    rw [h2]; exact hi
  · cases h

theorem extract_of_fm_none {s : List Char} (h : matchFrontmatter s = none) :
    extractDescription (some s) = defaultDesc := by
  simp [extractDescription, h]

theorem fm_none_of_no_close {s : List Char}
    (h : ∀ i, i ≤ s.length → closeAt (s.drop i) = false) :
    matchFrontmatter s = none := by
  cases hm : matchFrontmatter s with
  | none => rfl
  | some y =>
    obtain ⟨i, hi⟩ := matchFrontmatter_close hm
    by_cases hle : i ≤ s.length
    · rw [h i hle] at hi; cases hi
    · rw [List.drop_eq_nil_of_le (le_of_lt (lt_of_not_le hle))] at hi
      cases hi

/-! ## Claim theorems -/

/-- C9: the install tool handler treats an empty `skill_name` exactly like
a missing one, raising the missing-required-argument fault before the
install core runs; and a marker directly at the scan root does derive the
empty name, so such a skill exists but is unreachable through the install
interface. -/
theorem c9_empty_name_unreachable :
    (∀ (le : String → String → Bool) (srcRoot dest : Option FSNode),
      installToolHandler le srcRoot dest (some "") =
        .error "Missing required argument: skill_name" ∧
      installToolHandler le srcRoot dest none =
        .error "Missing required argument: skill_name") ∧
    findSkills leTrue (some (.dir true (.cons "SKILL.md" (.file (some egMd)) .nil))) =
      .ok [{ name := "", path := [], description := ("A concrete skill").data }] := by
  constructor
  · intro le srcRoot dest
    constructor
    · simp [installToolHandler]
    · rfl
  · decide

/-- C6: a requested name that matches no entry of the freshly built
catalog yields the not-found outcome and leaves the destination tree
unchanged. -/
theorem c6_notFound_no_write (le : String → String → Bool)
    (srcRoot dest : Option FSNode) (skills : List Skill) (n : String)
    (h1 : findSkills le srcRoot = .ok skills)
    (h2 : skills.find? (fun s => s.name == n) = none) :
    handleInstallSkill le srcRoot dest n = .ok (.notFound, dest) := by
  unfold handleInstallSkill
  rw [h1]
  dsimp only
  rw [h2]

/-- Witness for C6 at a concrete tree and name. -/
theorem c6_notFound_no_write_witness :
    handleInstallSkill leTrue (some egTree) none "missing" = .ok (.notFound, none) :=
  c6_notFound_no_write leTrue (some egTree) none
    [{ name := "alpha", path := ["alpha"], description := ("A concrete skill").data }]
    "missing" (by decide) (by decide)

/-- C3 counterexample: an unreadable plugins root makes `findSkills`
propagate the `readdirSync` error instead of returning an empty catalog,
refuting the claim that the catalog build never fails. -/
theorem c3_counterexample :
    findSkills leTrue (some (.dir false .nil)) = .error "EACCES: readdirSync" ∧
    findSkills leTrue (some (.dir false .nil)) ≠ .ok [] := by
  constructor
  · decide
  · decide

/-- C3 as amended: an absent root yields an empty catalog, and whenever
the recursive walk succeeds and finds no marker file the catalog is empty;
an unreadable directory instead raises the underlying error (see the
counterexample). -/
theorem c3_empty_catalog :
    (∀ le : String → String → Bool, findSkills le none = .ok []) ∧
    (∀ (le : String → String → Bool) (nd : FSNode)
      (files : List (List String × Option (List Char))),
      walkTop nd = .ok files → files.filter isMarker = [] →
      findSkills le (some nd) = .ok []) := by
  constructor
  · intro le; rfl
  · intro le nd files hw hf
    unfold findSkills
    dsimp only
    rw [hw]
    dsimp only
    rw [hf]
    simp [List.insertionSort]

/-- Witness for C3 at a concrete root with a file that is not a marker. -/
theorem c3_empty_catalog_witness :
    findSkills leTrue (some (.dir true (.cons "readme.txt" (.file none) .nil))) = .ok [] :=
  c3_empty_catalog.2 leTrue _ [(["readme.txt"], none)] (by decide) (by decide)

theorem fm_none_of_not_dashes (s : List Char) (h : startsDashes s = false) :
    matchFrontmatter s = none := by
  unfold matchFrontmatter
  split
  · rename_i s3
    simp [startsDashes] at h
  · rfl

theorem wsThenNl_has_nl : ∀ r : List Char, wsThenNl r = true → ∃ j, r.get? j = some '\n' := by
  intro r
  induction r with
  | nil => intro h; simp [wsThenNl] at h
  | cons c t ih =>
    intro h
    rw [wsThenNl] at h
    by_cases h1 : c = '\n'
    · exact ⟨0, by simp [h1]⟩
    · rw [if_neg h1] at h
      by_cases h2 : isWS c = true
      · rw [if_pos h2] at h
        obtain ⟨j, hj⟩ := ih h
        exact ⟨j + 1, by simpa using hj⟩
      · rw [if_neg h2] at h
        cases h

theorem closeAt_structure :
    ∀ r : List Char, closeAt r = true →
      ∃ rest, r = '\n' :: '-' :: '-' :: '-' :: rest ∧ ∃ j, rest.get? j = some '\n' := by
  intro r h
  unfold closeAt at h
  split at h
  · rename_i rest
    exact ⟨rest, rfl, wsThenNl_has_nl _ h⟩
  · cases h

/-- C5: whenever the marker file is unreadable, its frontmatter header is
missing or has no closing delimiter anywhere, or the header carries no
description key, the description is exactly the fixed placeholder, and no
error escapes the extraction. -/
theorem c5_placeholder_on_failure :
    (extractDescription none = defaultDesc) ∧
    (∀ s : List Char, matchFrontmatter s = none → extractDescription (some s) = defaultDesc) ∧
    (∀ s : List Char, (∀ i, i ≤ s.length → closeAt (s.drop i) = false) →
      extractDescription (some s) = defaultDesc) ∧
    (∀ s y : List Char, matchFrontmatter s = some y → findDescMatch y = none →
      extractDescription (some s) = defaultDesc) := by
  refine ⟨rfl, fun s h => extract_of_fm_none h, ?_, ?_⟩
  · intro s h
    exact extract_of_fm_none (fm_none_of_no_close h)
  · intro s y h1 h2
    simp [extractDescription, h1, h2]

/-- Witness for C5: a marker whose header never closes gets the
placeholder. -/
theorem c5_placeholder_on_failure_witness :
    extractDescription (some ("---\ndescription: x").data) = defaultDesc :=
  c5_placeholder_on_failure.2.2.1 _ (by decide)

/-- C10: the metadata header is only recognized when the content starts
with the opening dashes at its very first character, and any closing
delimiter requires a newline after the closing dashes; concretely, a
closing line that ends the file without a trailing newline leaves the
placeholder, while the same content with the trailing newline is
recognized. -/
theorem c10_header_anchoring :
    (∀ s : List Char, startsDashes s = false → extractDescription (some s) = defaultDesc) ∧
    (∀ r : List Char, closeAt r = true →
      ∃ rest, r = '\n' :: '-' :: '-' :: '-' :: rest ∧ ∃ j, rest.get? j = some '\n') ∧
    extractDescription (some ("---\ndescription: x\n---").data) = defaultDesc ∧
    extractDescription (some ("---\ndescription: x\n---\n").data) = ("x").data := by
  exact ⟨fun s h => extract_of_fm_none (fm_none_of_not_dashes s h), closeAt_structure,
    by decide, by decide⟩

/-- Witness for C10: leading content before the opening dashes defeats
header recognition. -/
theorem c10_header_anchoring_witness :
    extractDescription (some ("\n---\ndescription: x\n---\n").data) = defaultDesc :=
  c10_header_anchoring.1 _ (by decide)

theorem dedupeAux_chain : ∀ (l : List String) (x : String),
    List.Chain' (fun a b => a ≠ b) (x :: dedupeAux x l) := by
  intro l
  induction l with
  | nil => intro x; simp [dedupeAux]
  | cons y ys ih =>
    intro x
    rw [dedupeAux]
    by_cases h : y = x
    · rw [if_pos h]; exact ih x
    · rw [if_neg h]
      exact List.chain'_cons.mpr ⟨Ne.symm h, ih y⟩

theorem dedupeAux_sub : ∀ (l : List String) (x z : String), z ∈ dedupeAux x l → z ∈ l := by
  intro l
  induction l with
  | nil => intro x z h; simp [dedupeAux] at h
  | cons y ys ih =>
    intro x z h
    rw [dedupeAux] at h
    by_cases hyx : y = x
    · rw [if_pos hyx] at h
      exact List.mem_cons_of_mem _ (ih _ _ h)
    · rw [if_neg hyx] at h
      rcases List.mem_cons.mp h with rfl | h2
      · exact List.mem_cons_self _ _
      · exact List.mem_cons_of_mem _ (ih _ _ h2)

theorem finalParts_chain (l : List String) :
    List.Chain' (fun a b => a ≠ b) (finalPartsFun l) := by
  cases l with
  | nil => simp [finalPartsFun]
  | cons x xs => exact dedupeAux_chain xs x

theorem finalParts_sub (l : List String) (z : String) (h : z ∈ finalPartsFun l) : z ∈ l := by
  cases l with
  | nil => simp [finalPartsFun] at h
  | cons x xs =>
    rw [finalPartsFun] at h
    rcases List.mem_cons.mp h with rfl | h2
    · exact List.mem_cons_self _ _
    · exact List.mem_cons_of_mem _ (dedupeAux_sub _ _ _ h2)

theorem skills_notin_final (parts : List String) :
    "skills" ∉ finalPartsFun (parts.filter (fun p => p ≠ "skills")) := by
  intro hmem
  have h2 := finalParts_sub _ _ hmem
  simp [List.mem_filter] at h2

/-- C2: every catalog entry derives its name from its own marker
directory: the entry's `path` is the containing directory of a marker
file found by the walk, and the name is the hyphen-join of exactly those
path segments (the empty relative path contributing one empty segment)
after removing the literal segment `skills` and collapsing adjacent
duplicates; consequently that segment list never contains `skills` and
never contains two identical adjacent segments. -/
theorem c2_name_derivation (le : String → String → Bool) (root : Option FSNode)
    (skills : List Skill) (h : findSkills le root = .ok skills)
    (sk : Skill) (hm : sk ∈ skills) :
    sk.name = String.intercalate "-"
      (finalPartsFun ((if sk.path = [] then [""] else sk.path).filter
        (fun p => p ≠ "skills"))) ∧
    "skills" ∉ finalPartsFun ((if sk.path = [] then [""] else sk.path).filter
      (fun p => p ≠ "skills")) ∧
    List.Chain' (fun a b => a ≠ b)
      (finalPartsFun ((if sk.path = [] then [""] else sk.path).filter
        (fun p => p ≠ "skills"))) ∧
    (∀ (nd : FSNode) (files : List (List String × Option (List Char))),
      root = some nd → walkTop nd = .ok files →
      ∃ f, f ∈ files ∧ isMarker f = true ∧ sk.path = f.1.dropLast ∧
        sk.description = extractDescription f.2) := by
  cases root with
  | none =>
    unfold findSkills at h
    cases h
    simp at hm
  | some nd0 =>
    unfold findSkills at h
    dsimp only at h
    cases hw : walkTop nd0 with
    | error e => rw [hw] at h; cases h
    | ok files0 =>
      rw [hw] at h
      dsimp only at h
      cases h
      have hm2 : sk ∈ (files0.filter isMarker).map mkSkill :=
        (List.mem_insertionSort _).mp hm
      obtain ⟨f, hf, rfl⟩ := List.mem_map.mp hm2
      refine ⟨rfl, skills_notin_final _, finalParts_chain _, ?_⟩
      intro nd files hroot hw2
      cases hroot
      rw [hw] at hw2
      cases hw2
      exact ⟨f, List.mem_of_mem_filter hf, List.of_mem_filter hf, rfl, rfl⟩

/-- Witness for C2 at a concrete catalog and entry: the name equation of
the theorem, instantiated. -/
theorem c2_name_derivation_witness :
    (Skill.mk "alpha" ["alpha"] (("A concrete skill").data)).name =
      String.intercalate "-"
        (finalPartsFun
          ((if (Skill.mk "alpha" ["alpha"] (("A concrete skill").data)).path = [] then [""]
            else (Skill.mk "alpha" ["alpha"] (("A concrete skill").data)).path).filter
            (fun p => p ≠ "skills"))) :=
  (c2_name_derivation leTrue (some egTree)
    [{ name := "alpha", path := ["alpha"], description := ("A concrete skill").data }]
    (by decide) _ (by decide)).1

theorem orderedInsert_filter_pos {α : Type} (r : α → α → Prop) [DecidableRel r]
    (P : α → Bool) (x : α) (hx : P x = true) (hrx : ∀ y, P y = true → r x y) :
    ∀ l : List α, (List.orderedInsert r x l).filter P = x :: l.filter P := by
  intro l
  induction l with
  | nil => simp [List.orderedInsert, hx]
  | cons y ys ih =>
    rw [List.orderedInsert]
    by_cases hr : r x y
    · rw [if_pos hr]
      simp [List.filter_cons, hx]
    · rw [if_neg hr]
      have hPy : P y = false := by
        cases hPy : P y with
        | true => exact absurd (hrx y hPy) hr
        | false => rfl
      simp [List.filter_cons, hPy, ih]

theorem orderedInsert_filter_neg {α : Type} (r : α → α → Prop) [DecidableRel r]
    (P : α → Bool) (x : α) (hx : P x = false) :
    ∀ l : List α, (List.orderedInsert r x l).filter P = l.filter P := by
  intro l
  induction l with
  | nil => simp [List.orderedInsert, hx]
  | cons y ys ih =>
    rw [List.orderedInsert]
    by_cases hr : r x y
    · rw [if_pos hr]
      simp [List.filter_cons, hx]
    · rw [if_neg hr]
      simp [List.filter_cons, ih]

theorem insertionSort_filter {α : Type} (r : α → α → Prop) [DecidableRel r]
    (P : α → Bool) (hP : ∀ x y, P x = true → P y = true → r x y) :
    ∀ l : List α, (List.insertionSort r l).filter P = l.filter P := by
  intro l
  induction l with
  | nil => rfl
  | cons x xs ih =>
    rw [List.insertionSort]
    cases hx : P x with
    | true =>
      rw [orderedInsert_filter_pos r P x hx (fun y hy => hP x y hx hy), ih]
      simp [List.filter_cons, hx]
    | false =>
      rw [orderedInsert_filter_neg r P x hx, ih]
      simp [List.filter_cons, hx]

/-- C8: a successfully built catalog is sorted non-decreasingly by name
under the comparator, for every total transitive comparator; and the sort
is stable: filtering the catalog to any fixed name gives exactly the
entries of that name in discovery order. -/
theorem c8_sorted_stable (le : String → String → Bool)
    (htot : ∀ a b, le a b = true ∨ le b a = true)
    (htrans : ∀ a b c, le a b = true → le b c = true → le a c = true)
    (root : Option FSNode) (skills : List Skill)
    (h : findSkills le root = .ok skills) :
    List.Sorted (fun a b : Skill => le a.name b.name = true) skills ∧
    (∀ (nd : FSNode) (files : List (List String × Option (List Char))),
      root = some nd → walkTop nd = .ok files →
      ∀ n : String, skills.filter (fun s => s.name == n) =
        ((files.filter isMarker).map mkSkill).filter (fun s => s.name == n)) := by
  haveI instT : IsTotal Skill (fun a b : Skill => le a.name b.name = true) :=
    ⟨fun a b => htot a.name b.name⟩
  haveI instTr : IsTrans Skill (fun a b : Skill => le a.name b.name = true) :=
    ⟨fun a b c hab hbc => htrans a.name b.name c.name hab hbc⟩
  cases root with
  | none =>
    unfold findSkills at h
    cases h
    exact ⟨List.sorted_nil, fun nd files hroot => by cases hroot⟩
  | some nd =>
    unfold findSkills at h
    dsimp only at h
    cases hw : walkTop nd with
    | error e => rw [hw] at h; cases h
    | ok files0 =>
      rw [hw] at h
      dsimp only at h
      cases h
      constructor
      · exact List.sorted_insertionSort _ _
      · intro nd2 files2 hroot hw2 n
        cases hroot
        rw [hw] at hw2
        cases hw2
        refine insertionSort_filter _ _ ?_ _
        intro x y hx hy
        have hx2 : x.name = n := by simpa using hx
        have hy2 : y.name = n := by simpa using hy
        rw [hx2, hy2]
        rcases htot n n with h2 | h2
        · exact h2
        · exact h2

/-- Witness for C8 with the concrete length comparator, which is total and
transitive. -/
theorem c8_sorted_stable_witness :
    List.Sorted (fun a b : Skill => leLen a.name b.name = true)
      [{ name := "alpha", path := ["alpha"], description := ("A concrete skill").data }] :=
  (c8_sorted_stable leLen
    (fun a b => by simp [leLen]; exact Nat.le_total a.length b.length)
    (fun a b c h1 h2 => by
      simp [leLen] at h1 h2 ⊢
      exact Nat.le_trans h1 h2)
    (some egTree) _ (by decide)).1

theorem entHas_append_self : ∀ (es : FSEntries) (k : String) (v : FSNode),
    entHas (entAppend es k v) k = true
  | .nil, k, v => by simp [entAppend, entHas]
  | .cons k0 v0 r, k, v => by simp [entAppend, entHas, entHas_append_self r k v]

theorem entGet_append_self : ∀ (es : FSEntries) (k : String) (v : FSNode),
    entHas es k = false → entGet (entAppend es k v) k = some v
  | .nil, k, v => by
    intro h
    simp [entAppend, entGet]
  | .cons k0 v0 r, k, v => by
    intro h
    simp only [entHas, Bool.or_eq_false_iff] at h
    simp [entAppend, entGet, h.1, entGet_append_self r k v h.2]

/-- C1: with the requested skill present in the catalog, its source
readable and the destination initially absent, the first install returns
the installed outcome, and a second install of the same name returns the
already-installed outcome without changing the destination tree.  The
empty name is excluded here: it cannot be requested through the tool
interface (see the C9 theorem). -/
theorem c1_install_idempotent (le : String → String → Bool) (srcNd : FSNode)
    (dest : Option FSNode) (n : String) (skills : List Skill) (sk : Skill) (node : FSNode)
    (h1 : findSkills le (some srcNd) = .ok skills)
    (h2 : skills.find? (fun s => s.name == n) = some sk)
    (h3 : getNode sk.path srcNd = some node)
    (h4 : readableNode node = true)
    (h5 : destDirExists dest n = false)
    (h6 : n ≠ "")
    (h7 : dest = none ∨ ∃ rd es, dest = some (.dir rd es)) :
    ∃ dest1 : Option FSNode,
      handleInstallSkill le (some srcNd) dest n = .ok (.installed n, dest1) ∧
      handleInstallSkill le (some srcNd) dest1 n = .ok (.alreadyInstalled n, dest1) ∧
      destDirExists dest1 n = true := by
  rcases h7 with rfl | ⟨rd, es, rfl⟩
  · refine ⟨some (.dir true (.cons n node .nil)), ?_, ?_, ?_⟩
    · unfold handleInstallSkill
      simp only [h1, h2]
      rw [if_neg (by simp [h5])]
      simp only [h3]
      rw [if_pos h4, if_neg h6]
      rfl
    · unfold handleInstallSkill
      simp only [h1, h2]
      rw [if_pos (by simp [destDirExists, h6, entHas])]
    · simp [destDirExists, h6, entHas]
  · have h5b : entHas es n = false := by
      simpa [destDirExists, h6] using h5
    refine ⟨some (.dir rd (entAppend es n node)), ?_, ?_, ?_⟩
    · unfold handleInstallSkill
      simp only [h1, h2]
      rw [if_neg (by simp [h5])]
      simp only [h3]
      rw [if_pos h4, if_neg h6]
    · unfold handleInstallSkill
      simp only [h1, h2]
      rw [if_pos (by simp [destDirExists, h6, entHas_append_self])]
    · simp [destDirExists, h6, entHas_append_self]

/-- Witness for C1 at a concrete tree, name, and absent destination. -/
theorem c1_install_idempotent_witness :
    ∃ dest1 : Option FSNode,
      handleInstallSkill leTrue (some egTree) none "alpha" = .ok (.installed "alpha", dest1) ∧
      handleInstallSkill leTrue (some egTree) dest1 "alpha" =
        .ok (.alreadyInstalled "alpha", dest1) ∧
      destDirExists dest1 "alpha" = true :=
  c1_install_idempotent leTrue egTree none "alpha"
    [{ name := "alpha", path := ["alpha"], description := ("A concrete skill").data }]
    { name := "alpha", path := ["alpha"], description := ("A concrete skill").data }
    (.dir true (.cons "SKILL.md" (.file (some egMd)) .nil))
    (by decide) (by decide) (by decide) (by decide) (by decide) (by decide) (Or.inl rfl)

/-- C7: whenever an install reports success, the destination tree holds,
under the requested name, exactly the node of the skill's source directory
(the full subtree, hence every file in it with identical contents).  The
empty name is excluded: it cannot be requested through the tool interface
(see the C9 theorem). -/
theorem c7_install_copies_source (le : String → String → Bool) (srcNd : FSNode)
    (dest dest2 : Option FSNode) (n : String) (hn : n ≠ "")
    (h : handleInstallSkill le (some srcNd) dest n = .ok (.installed n, dest2)) :
    ∃ (skills : List Skill) (sk : Skill) (node : FSNode),
      findSkills le (some srcNd) = .ok skills ∧
      skills.find? (fun s => s.name == n) = some sk ∧
      getNode sk.path srcNd = some node ∧
      readableNode node = true ∧
      ∃ rd es, dest2 = some (.dir rd es) ∧ entGet es n = some node := by
  unfold handleInstallSkill at h
  cases hfs : findSkills le (some srcNd) with
  | error e => rw [hfs] at h; cases h
  | ok skills =>
    rw [hfs] at h
    dsimp only at h
    cases hfind : skills.find? (fun s => s.name == n) with
    | none => rw [hfind] at h; simp at h
    | some sk =>
      rw [hfind] at h
      dsimp only at h
      by_cases hde : destDirExists dest n = true
      · rw [if_pos hde] at h; simp at h
      · rw [if_neg hde] at h
        cases hg : getNode sk.path srcNd with
        | none => rw [hg] at h; simp at h
        | some node =>
          rw [hg] at h
          dsimp only at h
          by_cases hrd : readableNode node = true
          · rw [if_pos hrd, if_neg hn] at h
            cases dest with
            | none =>
              simp only [Except.ok.injEq, Prod.mk.injEq] at h
              obtain ⟨-, hd2⟩ := h
              refine ⟨skills, sk, node, rfl, hfind, hg, hrd, true, entAppend .nil n node,
                hd2.symm, ?_⟩
              simp [entAppend, entGet]
            | some d =>
              cases d with
              | file c => simp at h
              | dir rd es =>
                simp only [Except.ok.injEq, Prod.mk.injEq] at h
                obtain ⟨-, hd2⟩ := h
                have hes : entHas es n = false := by
                  have hde2 : destDirExists (some (.dir rd es)) n = false :=
                    Bool.not_eq_true _ |>.mp hde
                  simpa [destDirExists, hn] using hde2
                exact ⟨skills, sk, node, rfl, hfind, hg, hrd, rd, entAppend es n node,
                  hd2.symm, entGet_append_self es n node hes⟩
          · rw [if_neg hrd] at h; simp at h

/-- Witness for C7: installing from a source directory holding the marker
file and a resource file places that directory, with both files, at the
destination. -/
theorem c7_install_copies_source_witness :
    ∃ (skills : List Skill) (sk : Skill) (node : FSNode),
      findSkills leTrue (some egTree2) = .ok skills ∧
      skills.find? (fun s => s.name == "alpha") = some sk ∧
      getNode sk.path egTree2 = some node ∧
      readableNode node = true ∧
      ∃ rd es, (some (FSNode.dir true (.cons "alpha"
          (.dir true (.cons "SKILL.md" (.file (some egMd))
            (.cons "resource.txt" (.file (some ("res").data)) .nil))) .nil)) : Option FSNode) =
          some (.dir rd es) ∧ entGet es "alpha" = some node :=
  c7_install_copies_source leTrue egTree2 none _ "alpha" (by decide) (by decide)

theorem foldedLoop_skip (rest : List (List Char)) :
    ∀ pre : List (List Char), (∀ l ∈ pre, descGtLine l = false) →
      foldedLoop false (pre ++ rest) = foldedLoop false rest := by
  intro pre
  induction pre with
  | nil => intro h; rfl
  | cons l ls ih =>
    intro h
    have hl : descGtLine l = false := h l (List.mem_cons_self _ _)
    rw [List.cons_append, foldedLoop, hl]
    simp only [Bool.false_eq_true, if_false]
    exact ih (fun m hm => h m (List.mem_cons_of_mem _ hm))

theorem foldedLoop_capture :
    ∀ tail : List (List Char), (∀ l ∈ tail, descGtLine l = false) →
      foldedLoop true tail =
        ((tail.takeWhile (fun l => (trimChars l).isEmpty || twoSpace l)).filter
          (fun l => !(trimChars l).isEmpty)).map trimChars := by
  intro tail
  induction tail with
  | nil => intro h; rfl
  | cons l ls ih =>
    intro h
    have hl : descGtLine l = false := h l (List.mem_cons_self _ _)
    have ih2 := ih (fun m hm => h m (List.mem_cons_of_mem _ hm))
    rw [foldedLoop, hl]
    simp only [Bool.false_eq_true, if_false, if_true]
    by_cases hb : trimChars l = []
    · rw [if_pos hb]
      rw [ih2]
      simp [List.takeWhile_cons, List.filter_cons, hb]
    · rw [if_neg hb]
      have hb2 : (trimChars l).isEmpty = false := by
        simpa [List.isEmpty_iff] using hb
      by_cases ht : twoSpace l = true
      · rw [if_pos ht, ih2]
        simp [List.takeWhile_cons, List.filter_cons, hb2, ht]
      · have ht2 : twoSpace l = false := by
          simpa using ht
        rw [if_neg (by simp [ht2])]
        simp [List.takeWhile_cons, hb2, ht2]

/-- C4 counterexample: the claim's folded-value rule fails on the code in
two ways, each witnessed by a concrete marker.  With a blank line between
indented continuation lines the code skips the blank line and keeps
consuming, while the claimed rule stops there; and a bare folded indicator
with nothing else in the header yields the literal indicator character,
while the claimed rule yields the empty folded value.
`specC4Description` is the claim's rule, stated in its own words. -/
theorem c4_counterexample :
    (extractDescription (some c4inputA) = ("first second").data ∧
     specC4Description c4inputA = ("first").data ∧
     extractDescription (some c4inputA) ≠ specC4Description c4inputA) ∧
    (extractDescription (some c4inputB) = (">").data ∧
     specC4Description c4inputB = [] ∧
     extractDescription (some c4inputB) ≠ specC4Description c4inputB) := by
  constructor
  · exact ⟨by decide, by decide, by decide⟩
  · exact ⟨by decide, by decide, by decide⟩

/-- C4 as amended: the folded branch is taken exactly when the description
regex captures the folded indicator, and then the description is built
from the header lines after the `description: >` line by skipping blank
lines, consuming lines that start with two spaces (each trimmed), and
stopping at the first non-blank line that does not start with two spaces,
joined by single spaces; otherwise the description is the captured
remainder, trimmed. -/
theorem c4_amended_folded_rule :
    (∀ (g : List Char) (pre tail : List (List Char)),
      (∀ l ∈ pre, descGtLine l = false) → descGtLine g = true →
      (∀ l ∈ tail, descGtLine l = false) →
      foldedLoop false (pre ++ g :: tail) =
        ((tail.takeWhile (fun l => (trimChars l).isEmpty || twoSpace l)).filter
          (fun l => !(trimChars l).isEmpty)).map trimChars) ∧
    (∀ s y g2 : List Char, matchFrontmatter s = some y →
      findDescMatch y = some (true, g2) →
      extractDescription (some s) = joinSpace (foldedLoop false (splitNl y))) ∧
    (∀ s y g2 : List Char, matchFrontmatter s = some y →
      findDescMatch y = some (false, g2) →
      extractDescription (some s) = trimChars g2) := by
  refine ⟨?_, ?_, ?_⟩
  · intro g pre tail hpre hg htail
    rw [foldedLoop_skip _ pre hpre, foldedLoop, hg]
    simp only [if_true]
    exact foldedLoop_capture tail htail
  · intro s y g2 h1 h2
    simp [extractDescription, h1, h2]
  · intro s y g2 h1 h2
    simp [extractDescription, h1, h2]

/-- Witness for C4 as amended, at a concrete folded header with a blank
continuation line. -/
theorem c4_amended_folded_rule_witness :
    foldedLoop false
      [("description: >").data, ("  a").data, [], ("  b").data, ("x: y").data] =
      [("a").data, ("b").data] := by
  have h := c4_amended_folded_rule.1 (("description: >").data) []
    [("  a").data, [], ("  b").data, ("x: y").data]
    (by intro l hl; simp at hl) (by decide) (by decide)
  exact h.trans (by decide)
